import Mathlib

/-!
# Verification of the `union-find` crate

Shallow embedding of `src/lib.rs` (struct `UnionFind` with its methods
`new`, `union`, `find`, `find_only`, `same`, `same_only`).

The Rust `while` loops are modelled with explicit fuel, because loop
termination over the parent array is a property to be proved (or refuted),
not assumed.  An operation yields a `Res`: a normal return, an
out-of-bounds panic (Rust's `Vec` indexing is bounds checked), or fuel
exhaustion, which over-approximates divergence — a loop that diverges
exhausts every fuel.
-/

/-- Outcome of running one of the Rust operations: normal return,
index-out-of-bounds panic, or fuel exhaustion (the loop did not finish
within the given number of iterations). -/
inductive Res (α : Type) where
  | ok : α → Res α
  | panicked : Res α
  | diverge : Res α
  deriving DecidableEq

/-- Sequencing of fallible computations, mirroring Rust control flow:
a panic or divergence aborts the rest of the operation. -/
def Res.bind {α β : Type} : Res α → (α → Res β) → Res β
  | .ok a, f => f a
  | .panicked, _ => .panicked
  | .diverge, _ => .diverge

instance : Monad Res where
  pure := Res.ok
  bind := Res.bind

/-- `pub struct UnionFind { parts: Vec<usize> }` -/
structure UnionFind where
  parts : List Nat
  deriving DecidableEq

/-- `UnionFind::new(n)`: `parts` is built by pushing `i` for `i in 0..n`. -/
def UnionFind.new (n : Nat) : UnionFind :=
  ⟨List.range n⟩

/-- `UnionFind::union(i, j)`: `self.parts[j] = self.parts[i]`.
Rust evaluates the right-hand side `self.parts[i]` (bounds-checked read),
then performs the bounds-checked write to slot `j`. -/
def UnionFind.union (u : UnionFind) (i j : Nat) : Res UnionFind :=
  match u.parts[i]? with
  | none => .panicked
  | some v => if j < u.parts.length then .ok ⟨u.parts.set j v⟩ else .panicked

/-- First loop of `UnionFind::find`:
`let mut p = i; while self.parts[p] != p { p = self.parts[p] }`. -/
def findLoop1 (parts : List Nat) : Nat → Nat → Res Nat
  | 0, _ => .diverge
  | fuel + 1, p =>
    match parts[p]? with
    | none => .panicked
    | some v => if v = p then .ok p else findLoop1 parts fuel v

/-- Second loop of `UnionFind::find` (path compression):
`let mut s = i; while s != p { let t = self.parts[s]; self.parts[s] = p; s = t }`. -/
def findLoop2 (r : Nat) : Nat → List Nat → Nat → Res (List Nat)
  | 0, _, _ => .diverge
  | fuel + 1, parts, s =>
    if s = r then .ok parts
    else
      match parts[s]? with
      | none => .panicked
      | some t => findLoop2 r fuel (parts.set s r) t

/-- `UnionFind::find(i)`: run the root-finding loop, then the compression
loop, and return the root together with the mutated table. -/
def UnionFind.find (fuel : Nat) (u : UnionFind) (i : Nat) : Res (Nat × UnionFind) :=
  Res.bind (findLoop1 u.parts fuel i) fun p =>
  Res.bind (findLoop2 p fuel u.parts i) fun parts2 =>
  .ok (p, ⟨parts2⟩)

/-- The loop of `UnionFind::find_only`:
`let mut p = i; while self.parts[p] != p { p = self.parts[p] }`. -/
def findOnlyLoop (parts : List Nat) : Nat → Nat → Res Nat
  | 0, _ => .diverge
  | fuel + 1, p =>
    match parts[p]? with
    | none => .panicked
    | some v => if v = p then .ok p else findOnlyLoop parts fuel v

/-- `UnionFind::find_only(i)`: the same traversal as `find`'s first loop,
with no mutation. -/
def UnionFind.find_only (fuel : Nat) (u : UnionFind) (i : Nat) : Res Nat :=
  findOnlyLoop u.parts fuel i

/-- `UnionFind::same(i, j)`: `self.find(i) == self.find(j)`; the two
`find` calls run left to right, each mutating the table. -/
def UnionFind.same (fuel : Nat) (u : UnionFind) (i j : Nat) : Res (Bool × UnionFind) :=
  Res.bind (u.find fuel i) fun a =>
  Res.bind (a.2.find fuel j) fun b =>
  .ok (a.1 == b.1, b.2)

/-- `UnionFind::same_only(i, j)`: `self.find_only(i) == self.find_only(j)`. -/
def UnionFind.same_only (fuel : Nat) (u : UnionFind) (i j : Nat) : Res Bool :=
  Res.bind (u.find_only fuel i) fun a =>
  Res.bind (u.find_only fuel j) fun b =>
  .ok (a == b)

/-! ## The spec's invariants, stated on the parent array -/

/-- One step of parent-chasing: the value of `parts[p]` (with an inert
default for an out-of-range `p`; all uses keep `p` in range). -/
def pstep (parts : List Nat) (p : Nat) : Nat :=
  (parts[p]?).getD p

/-- `p` is a root: `parts[p] == p`. -/
def isRoot (parts : List Nat) (p : Nat) : Prop :=
  pstep parts p = p

instance (parts : List Nat) (p : Nat) : Decidable (isRoot parts p) :=
  inferInstanceAs (Decidable (_ = _))

/-- Following parent pointers from `i` reaches the root `r` in finitely
many steps (spec invariant 1, for one element). -/
def ReachesW (parts : List Nat) (i r : Nat) : Prop :=
  ∃ m, (pstep parts)^[m] i = r ∧ isRoot parts r

/-- Following parent pointers from `i` reaches the root `r` in exactly
`m` steps, `m` minimal: this is the walk `find`/`find_only` perform. -/
def Reaches (parts : List Nat) (i m r : Nat) : Prop :=
  (pstep parts)^[m] i = r ∧ isRoot parts r ∧
    ∀ m' < m, ¬ isRoot parts ((pstep parts)^[m'] i)

/-- Spec invariant 1 (the forest invariant): every element's parent chain
terminates at a self-loop root. -/
def Rooted (parts : List Nat) : Prop :=
  ∀ i < parts.length, ∃ m, isRoot parts ((pstep parts)^[m] i)

/-- Every stored parent pointer is a valid element index.  This holds in
every reachable table state (see `Reach.inRange`). -/
def InRange (parts : List Nat) : Prop :=
  ∀ x ∈ parts, x < parts.length

instance (parts : List Nat) : Decidable (InRange parts) :=
  inferInstanceAs (Decidable (∀ x ∈ parts, x < parts.length))

/-- Table states reachable from `new n` by the public operations (the
successful-return requirement already forces every element argument to be
a valid index, since an invalid one panics). -/
inductive Reach : UnionFind → Prop where
  | base : ∀ n, Reach (UnionFind.new n)
  | of_union : ∀ u i j u', Reach u → u.union i j = .ok u' → Reach u'
  | of_find : ∀ u fuel i r u', Reach u → u.find fuel i = .ok (r, u') → Reach u'
  | of_same : ∀ u fuel i j b u', Reach u → u.same fuel i j = .ok (b, u') → Reach u'

/-- The module documentation example: `new(20)`, then for each `i` in
`0..20`, `union(0, i)` if `i & 1 == 0` else `union(1, i)`. -/
def parityExample : Res UnionFind :=
  (List.range 20).foldlM
    (fun t i => if i &&& 1 == 0 then t.union 0 i else t.union 1 i)
    (UnionFind.new 20)

/-- The smallest equivalence relating the pairs passed to `union`: the
spec's "partition generated by the history of union calls". -/
def unionHistoryEqv (pairs : List (Nat × Nat)) : Nat → Nat → Prop :=
  Relation.EqvGen (fun a b => (a, b) ∈ pairs)

/-! ## Basic facts about parent-chasing -/

theorem pstep_eq_of_getElem? {parts : List Nat} {p v : Nat}
    (h : parts[p]? = some v) : pstep parts p = v := by
  simp [pstep, h]

theorem getElem?_eq_pstep {parts : List Nat} {p : Nat} (hp : p < parts.length) :
    parts[p]? = some (pstep parts p) := by
  rw [List.getElem?_eq_getElem hp]
  simp [pstep, List.getElem?_eq_getElem hp]

theorem pstep_lt {parts : List Nat} (hIR : InRange parts) {p : Nat}
    (hp : p < parts.length) : pstep parts p < parts.length := by
  have h := List.getElem?_eq_getElem hp
  have hmem : parts[p] ∈ parts := List.getElem_mem hp
  have := hIR _ hmem
  simpa [pstep_eq_of_getElem? h] using this

theorem iterate_lt {parts : List Nat} (hIR : InRange parts) {i : Nat}
    (hi : i < parts.length) : ∀ k, (pstep parts)^[k] i < parts.length := by
  intro k
  induction k with
  | zero => simpa using hi
  | succ k ih =>
      rw [Function.iterate_succ_apply']
      exact pstep_lt hIR ih

theorem iterate_root_fixed {parts : List Nat} {r : Nat} (h : isRoot parts r) :
    ∀ k, (pstep parts)^[k] r = r :=
  Function.iterate_fixed h

/-- Roots reached from a given start are unique. -/
theorem reachesW_unique {parts : List Nat} {i r r' : Nat}
    (h : ReachesW parts i r) (h' : ReachesW parts i r') : r = r' := by
  obtain ⟨a, ha, har⟩ := h
  obtain ⟨b, hb, hbr⟩ := h'
  rcases Nat.le_total a b with hab | hab
  · have : (pstep parts)^[b] i = r := by
      have hsum : b = (b - a) + a := by omega
      rw [hsum, Function.iterate_add_apply, ha, iterate_root_fixed har]
    rw [this] at hb; exact hb
  · have : (pstep parts)^[a] i = r' := by
      have hsum : a = (a - b) + b := by omega
      rw [hsum, Function.iterate_add_apply, hb, iterate_root_fixed hbr]
    rw [this] at ha; exact ha.symm

theorem reaches_reachesW {parts : List Nat} {i m r : Nat}
    (h : Reaches parts i m r) : ReachesW parts i r :=
  ⟨m, h.1, h.2.1⟩

/-- A terminating parent chain has a minimal-length (cycle-free) walk. -/
theorem reaches_of_rootedAt {parts : List Nat} {i : Nat}
    (h : ∃ m, isRoot parts ((pstep parts)^[m] i)) :
    ∃ m r, Reaches parts i m r := by
  classical
  refine ⟨Nat.find h, (pstep parts)^[Nat.find h] i, rfl, Nat.find_spec h, ?_⟩
  intro m' hm'
  exact Nat.find_min h hm'

theorem iter_periodic (f : Nat → Nat) (i a d : Nat)
    (h : f^[a + d] i = f^[a] i) : ∀ c, f^[a + c + d] i = f^[a + c] i := by
  intro c
  induction c with
  | zero => simpa using h
  | succ c ih =>
      have h1 : a + (c + 1) + d = (a + c + d) + 1 := by omega
      have h2 : a + (c + 1) = (a + c) + 1 := by omega
      rw [h1, h2, ← Nat.succ_eq_add_one, Function.iterate_succ_apply',
        Function.iterate_succ_apply', ih]

/-- The minimal walk to the root never revisits an element. -/
theorem reaches_distinct {parts : List Nat} {i m r : Nat}
    (h : Reaches parts i m r) :
    ∀ a b, a < b → b ≤ m → (pstep parts)^[a] i ≠ (pstep parts)^[b] i := by
  intro a b hab hbm heq
  have hper : ∀ c, (pstep parts)^[a + c + (b - a)] i = (pstep parts)^[a + c] i := by
    apply iter_periodic
    have hb : a + (b - a) = b := by omega
    rw [hb]; exact heq.symm
  have hm : (pstep parts)^[m] i = (pstep parts)^[m - (b - a)] i := by
    have := hper (m - b)
    have e1 : a + (m - b) + (b - a) = m := by omega
    have e2 : a + (m - b) = m - (b - a) := by omega
    rw [e1, e2] at this; exact this
  have hroot : isRoot parts ((pstep parts)^[m - (b - a)] i) := by
    rw [← hm, h.1]; exact h.2.1
  exact h.2.2 (m - (b - a)) (by omega) hroot

/-- Pigeonhole: the minimal walk visits `m + 1` distinct in-range elements,
so its length is below the table size. -/
theorem reaches_lt_length {parts : List Nat} {i m r : Nat}
    (hIR : InRange parts) (hi : i < parts.length) (h : Reaches parts i m r) :
    m < parts.length := by
  by_contra hle
  push_neg at hle
  have hltlen : ∀ k, (pstep parts)^[k] i < parts.length := iterate_lt hIR hi
  have hinj : Function.Injective
      (fun k : Fin (m + 1) => (⟨(pstep parts)^[k.1] i, hltlen k.1⟩ : Fin parts.length)) := by
    intro a b hab
    simp only [Fin.mk.injEq] at hab
    by_contra hne
    rcases Nat.lt_or_ge a.1 b.1 with hlt | hge
    · exact reaches_distinct h a.1 b.1 hlt (by omega) hab
    · have hlt : b.1 < a.1 := by
        rcases Nat.lt_or_ge b.1 a.1 with h' | h'
        · exact h'
        · exact absurd (Fin.ext (by omega)) hne
      exact reaches_distinct h b.1 a.1 hlt (by omega) hab.symm
  have := Fintype.card_le_of_injective _ hinj
  simp only [Fintype.card_fin] at this
  omega

/-! ## Correctness of the traversal loops on rooted states -/

/-- `find`'s first loop and `find_only`'s loop are the same traversal. -/
theorem findOnlyLoop_eq_findLoop1 (parts : List Nat) :
    ∀ fuel p, findOnlyLoop parts fuel p = findLoop1 parts fuel p := by
  intro fuel
  induction fuel with
  | zero => intro p; rfl
  | succ fuel ih =>
      intro p
      simp only [findOnlyLoop, findLoop1]
      cases h : parts[p]? with
      | none => rfl
      | some v =>
          by_cases hv : v = p <;> simp [hv, ih]

/-- With enough fuel, `find`'s root-finding loop returns exactly the root
of the minimal walk. -/
theorem findLoop1_ok {parts : List Nat} (hIR : InRange parts) :
    ∀ m i r fuel, i < parts.length → Reaches parts i m r → m < fuel →
      findLoop1 parts fuel i = .ok r := by
  intro m
  induction m with
  | zero =>
      intro i r fuel hi h hf
      obtain ⟨h0, hroot, _⟩ := h
      simp only [Function.iterate_zero_apply] at h0
      subst h0
      obtain ⟨fuel, rfl⟩ : ∃ f, fuel = f + 1 := ⟨fuel - 1, by omega⟩
      have hget := getElem?_eq_pstep hi
      have hroot' : pstep parts i = i := hroot
      simp [findLoop1, hget, hroot']
  | succ m ih =>
      intro i r fuel hi h hf
      obtain ⟨hit, hroot, hmin⟩ := h
      have hnr : ¬ isRoot parts i := by
        have := hmin 0 (by omega)
        simpa using this
      obtain ⟨fuel, rfl⟩ : ∃ f, fuel = f + 1 := ⟨fuel - 1, by omega⟩
      have hget := getElem?_eq_pstep hi
      have hv : pstep parts i ≠ i := hnr
      have hstep : Reaches parts (pstep parts i) m r := by
        refine ⟨?_, hroot, ?_⟩
        · rw [← Function.iterate_succ_apply]; exact hit
        · intro m' hm'
          have := hmin (m' + 1) (by omega)
          rwa [Function.iterate_succ_apply] at this
      have := ih (pstep parts i) r fuel (pstep_lt hIR hi) hstep (by omega)
      simp [findLoop1, hget, hv, this]

/-- The converse: an `ok` answer of the traversal loop comes from a
minimal walk to a root. -/
theorem findLoop1_ok_inv {parts : List Nat} :
    ∀ fuel i r, findLoop1 parts fuel i = .ok r → ∃ m, Reaches parts i m r := by
  intro fuel
  induction fuel with
  | zero => intro i r h; simp [findLoop1] at h
  | succ fuel ih =>
      intro i r h
      simp only [findLoop1] at h
      cases hget : parts[i]? with
      | none => simp [hget] at h
      | some v =>
          have hps : pstep parts i = v := pstep_eq_of_getElem? hget
          by_cases hv : v = i
          · simp [hget, hv] at h
            subst h
            exact ⟨0, by simpa using rfl, by simpa [isRoot, hps] using hv, by omega⟩
          · simp [hget, hv] at h
            obtain ⟨m, hit, hroot, hmin⟩ := ih v r h
            refine ⟨m + 1, ?_, hroot, ?_⟩
            · rw [Function.iterate_succ_apply, hps]; exact hit
            · intro m' hm'
              cases m' with
              | zero =>
                  simpa [isRoot, hps] using fun hc => hv hc
              | succ m' =>
                  have := hmin m' (by omega)
                  rwa [Function.iterate_succ_apply, hps]

/-! ## The compression loop -/

theorem pstep_set_ne {parts : List Nat} {v r k : Nat} (h : k ≠ v) :
    pstep (parts.set v r) k = pstep parts k := by
  simp [pstep, List.getElem?_set_ne (Ne.symm h)]

theorem pstep_set_self {parts : List Nat} {v r : Nat} (hv : v < parts.length) :
    pstep (parts.set v r) v = r := by
  simp [pstep, List.getElem?_set_eq hv]

/-- Full description of the compression loop on a rooted chain: it
terminates, rewrites exactly the elements of the walk from `i` (strictly
before the root) to point at the root, and leaves every other slot
untouched. -/
theorem findLoop2_ok :
    ∀ m (parts : List Nat) i r fuel, InRange parts → i < parts.length →
      Reaches parts i m r → m < fuel →
      ∃ parts2, findLoop2 r fuel parts i = .ok parts2 ∧
        parts2.length = parts.length ∧
        (∀ k, (∀ m' < m, k ≠ (pstep parts)^[m'] i) → parts2[k]? = parts[k]?) ∧
        (∀ m' < m, parts2[(pstep parts)^[m'] i]? = some r) := by
  intro m
  induction m with
  | zero =>
      intro parts i r fuel hIR hi h hf
      obtain ⟨h0, hroot, _⟩ := h
      simp only [Function.iterate_zero_apply] at h0
      subst h0
      obtain ⟨fuel, rfl⟩ : ∃ f, fuel = f + 1 := ⟨fuel - 1, by omega⟩
      exact ⟨parts, by simp [findLoop2], rfl, fun k _ => rfl, fun m' hm' => by omega⟩
  | succ m ih =>
      intro parts i r fuel hIR hi h hf
      have hir : i ≠ r := by
        intro hir
        exact h.2.2 0 (by omega) (by simpa [hir] using h.2.1)
      obtain ⟨fuel, rfl⟩ : ∃ f, fuel = f + 1 := ⟨fuel - 1, by omega⟩
      have hget := getElem?_eq_pstep hi
      set v := pstep parts i with hv
      have hvlt : v < parts.length := pstep_lt hIR hi
      have hrlt : r < parts.length := by
        have := iterate_lt hIR hi (m + 1)
        rwa [h.1] at this
      set parts1 := parts.set i r with hparts1
      have hlen1 : parts1.length = parts.length := List.length_set parts i r
      have hIR1 : InRange parts1 := by
        intro x hx
        rcases List.mem_or_eq_of_mem_set hx with hx | hx
        · rw [hlen1]; exact hIR x hx
        · rw [hlen1, hx]; exact hrlt
      -- the walk from i never returns to i
      have hne_i : ∀ a, 0 < a → a ≤ m + 1 → (pstep parts)^[a] i ≠ i := by
        intro a ha ham heq
        exact reaches_distinct h 0 a ha ham (by simpa using heq.symm)
      -- iterates from v in parts1 coincide with iterates from i in parts
      have hiter : ∀ k, k ≤ m → (pstep parts1)^[k] v = (pstep parts)^[k + 1] i := by
        intro k hk
        induction k with
        | zero => simp [hv, Function.iterate_one]
        | succ k ihk =>
            have hk' : k ≤ m := by omega
            have hne : (pstep parts)^[k + 1] i ≠ i := hne_i (k + 1) (by omega) (by omega)
            have e1 : (pstep parts1)^[k + 1] v = pstep parts1 ((pstep parts1)^[k] v) :=
              Function.iterate_succ_apply' _ _ _
            have e2 : (pstep parts)^[k + 1 + 1] i = pstep parts ((pstep parts)^[k + 1] i) :=
              Function.iterate_succ_apply' _ _ _
            rw [e1, e2, ihk hk', pstep_set_ne hne]
      have hreach1 : Reaches parts1 v m r := by
        refine ⟨?_, ?_, ?_⟩
        · rw [hiter m (by omega)]; exact h.1
        · have hrne : r ≠ i := fun hc => hir hc.symm
          have : pstep parts1 r = pstep parts r := pstep_set_ne hrne
          simpa [isRoot, this] using h.2.1
        · intro m' hm'
          have hnode : (pstep parts1)^[m'] v = (pstep parts)^[m' + 1] i :=
            hiter m' (by omega)
          have hne : (pstep parts)^[m' + 1] i ≠ i := hne_i (m' + 1) (by omega) (by omega)
          have hstep_eq : pstep parts1 ((pstep parts)^[m' + 1] i)
              = pstep parts ((pstep parts)^[m' + 1] i) := pstep_set_ne hne
          have hmin := h.2.2 (m' + 1) (by omega)
          intro hroot1
          apply hmin
          rw [hnode] at hroot1
          show pstep parts ((pstep parts)^[m' + 1] i) = (pstep parts)^[m' + 1] i
          rw [← hstep_eq]
          exact hroot1
      obtain ⟨parts2, heq2, hlen2, hframe2, hpath2⟩ :=
        ih parts1 v r fuel hIR1 (by rwa [hlen1]) hreach1 (by omega)
      refine ⟨parts2, ?_, by rw [hlen2, hlen1], ?_, ?_⟩
      · simp only [findLoop2, hir, if_neg hir, hget]
        exact heq2
      · intro k hk
        have hki : k ≠ i := by simpa using hk 0 (by omega)
        have hk1 : ∀ m' < m, k ≠ (pstep parts1)^[m'] v := by
          intro m' hm'
          rw [hiter m' (by omega)]
          exact hk (m' + 1) (by omega)
        rw [hframe2 k hk1, hparts1, List.getElem?_set_ne (Ne.symm hki)]
      · intro m' hm'
        cases m' with
        | zero =>
            have hi1 : ∀ m'' < m, (i : Nat) ≠ (pstep parts1)^[m''] v := by
              intro m'' hm''
              rw [hiter m'' (by omega)]
              exact fun hc => hne_i (m'' + 1) (by omega) (by omega) hc.symm
            rw [Function.iterate_zero_apply, hframe2 i hi1, hparts1,
              List.getElem?_set_eq hi]
        | succ m' =>
            have := hpath2 m' (by omega)
            rwa [hiter m' (by omega)] at this

/-! ## `find` on a rooted chain, and preservation of the invariants -/

/-- Full description of `find`: it returns the root of the minimal walk
from `i`, redirects exactly the walk's elements (strictly before the
root) to the root, and leaves everything else unchanged. -/
theorem find_spec {u : UnionFind} {i m r : Nat} (hIR : InRange u.parts)
    (hi : i < u.parts.length) (h : Reaches u.parts i m r) {fuel : Nat} (hf : m < fuel) :
    ∃ parts2, u.find fuel i = .ok (r, ⟨parts2⟩) ∧
      parts2.length = u.parts.length ∧
      (∀ k, (∀ m' < m, k ≠ (pstep u.parts)^[m'] i) → parts2[k]? = u.parts[k]?) ∧
      (∀ m' < m, parts2[(pstep u.parts)^[m'] i]? = some r) := by
  obtain ⟨parts2, h2, hlen, hframe, hpath⟩ :=
    findLoop2_ok m u.parts i r fuel hIR hi h hf
  refine ⟨parts2, ?_, hlen, hframe, hpath⟩
  rw [UnionFind.find, findLoop1_ok hIR m i r fuel hi h hf]
  show Res.bind (findLoop2 r fuel u.parts i) _ = _
  rw [h2]
  rfl

/-- `find_only` returns the root of the minimal walk. -/
theorem find_only_val {u : UnionFind} (hIR : InRange u.parts) {i m r : Nat}
    (hi : i < u.parts.length) (h : Reaches u.parts i m r) {fuel : Nat} (hf : m < fuel) :
    u.find_only fuel i = .ok r := by
  rw [UnionFind.find_only, findOnlyLoop_eq_findLoop1]
  exact findLoop1_ok hIR m i r fuel hi h hf

/-- Compression never changes which root an element reaches. -/
theorem roots_preserved {parts parts2 : List Nat} {i m r : Nat}
    (h : Reaches parts i m r)
    (hframe : ∀ k, (∀ m' < m, k ≠ (pstep parts)^[m'] i) → parts2[k]? = parts[k]?)
    (hpath : ∀ m' < m, parts2[(pstep parts)^[m'] i]? = some r) :
    ∀ k rk, ReachesW parts k rk → ReachesW parts2 k rk := by
  have hrootr : isRoot parts2 r := by
    have hud : ∀ m' < m, r ≠ (pstep parts)^[m'] i := by
      intro m' hm' heq
      exact reaches_distinct h m' m hm' le_rfl (by rw [← heq, h.1])
    have hfr := hframe r hud
    show pstep parts2 r = r
    have : pstep parts2 r = pstep parts r := by simp [pstep, hfr]
    rw [this]; exact h.2.1
  have main : ∀ mk k rk, (pstep parts)^[mk] k = rk → isRoot parts rk →
      ReachesW parts2 k rk := by
    intro mk
    induction mk using Nat.strong_induction_on with
    | _ mk ih =>
      intro k rk hit hroot
      by_cases hkroot : isRoot parts k
      · have hrk : rk = k := by rw [← hit, iterate_root_fixed hkroot]
        rw [hrk]
        have hknotpath : ∀ m' < m, k ≠ (pstep parts)^[m'] i := by
          intro m' hm' heq
          exact h.2.2 m' hm' (heq ▸ hkroot)
        have hfr := hframe k hknotpath
        have hps : pstep parts2 k = pstep parts k := by simp [pstep, hfr]
        refine ⟨0, by simp, ?_⟩
        show pstep parts2 k = k
        rw [hps]; exact hkroot
      · by_cases hkpath : ∃ m', m' < m ∧ k = (pstep parts)^[m'] i
        · obtain ⟨m', hm', hkeq⟩ := hkpath
          have hsub : ReachesW parts k r := by
            refine ⟨m - m', ?_, h.2.1⟩
            rw [hkeq, ← Function.iterate_add_apply]
            have e : m - m' + m' = m := by omega
            rw [e]; exact h.1
          have hrk : rk = r := reachesW_unique ⟨mk, hit, hroot⟩ hsub
          rw [hrk]
          have hp2 : parts2[k]? = some r := by rw [hkeq]; exact hpath m' hm'
          refine ⟨1, ?_, hrootr⟩
          rw [Function.iterate_one]
          exact pstep_eq_of_getElem? hp2
        · push_neg at hkpath
          have hfr := hframe k fun m' hm' => hkpath m' hm'
          have hps2 : pstep parts2 k = pstep parts k := by simp [pstep, hfr]
          have hmkpos : mk ≠ 0 := by
            intro h0
            subst h0
            simp only [Function.iterate_zero_apply] at hit
            subst hit
            exact hkroot hroot
          obtain ⟨mk', rfl⟩ : ∃ x, mk = x + 1 := ⟨mk - 1, by omega⟩
          have hit' : (pstep parts)^[mk'] (pstep parts k) = rk := by
            rw [← Function.iterate_succ_apply]; exact hit
          obtain ⟨m2, hm2, hm2root⟩ := ih mk' (by omega) (pstep parts k) rk hit' hroot
          refine ⟨m2 + 1, ?_, hm2root⟩
          rw [Function.iterate_succ_apply, hps2]
          exact hm2
  intro k rk hkrk
  obtain ⟨mk, hit, hroot⟩ := hkrk
  exact main mk k rk hit hroot

/-- The compressed table still stores only valid indices. -/
theorem inRange_preserved {parts parts2 : List Nat} {i m r : Nat}
    (hIR : InRange parts) (hi : i < parts.length) (h : Reaches parts i m r)
    (hlen : parts2.length = parts.length)
    (hframe : ∀ k, (∀ m' < m, k ≠ (pstep parts)^[m'] i) → parts2[k]? = parts[k]?)
    (hpath : ∀ m' < m, parts2[(pstep parts)^[m'] i]? = some r) :
    InRange parts2 := by
  have hrlt : r < parts.length := by
    have := iterate_lt hIR hi m
    rwa [h.1] at this
  intro x hx
  rw [hlen]
  obtain ⟨n, hn⟩ := List.mem_iff_getElem?.1 hx
  by_cases hnpath : ∃ m', m' < m ∧ n = (pstep parts)^[m'] i
  · obtain ⟨m', hm', hneq⟩ := hnpath
    have : parts2[n]? = some r := by rw [hneq]; exact hpath m' hm'
    rw [this] at hn
    cases hn
    exact hrlt
  · push_neg at hnpath
    have := hframe n fun m' hm' => hnpath m' hm'
    rw [this] at hn
    exact hIR x (List.mem_iff_getElem?.2 ⟨n, hn⟩)

/-- A rooted chain exists from every element of a rooted table, with
length below the table size. -/
theorem rooted_reaches {parts : List Nat} (hIR : InRange parts) (hR : Rooted parts)
    {k : Nat} (hk : k < parts.length) :
    ∃ m r, Reaches parts k m r ∧ m < parts.length := by
  obtain ⟨m, r, hmr⟩ := reaches_of_rootedAt (hR k hk)
  exact ⟨m, r, hmr, reaches_lt_length hIR hk hmr⟩

/-- The compressed table is still rooted (spec invariant 1 is preserved
by `find`). -/
theorem rooted_preserved {parts parts2 : List Nat} {i m r : Nat}
    (hR : Rooted parts) (h : Reaches parts i m r)
    (hlen : parts2.length = parts.length)
    (hframe : ∀ k, (∀ m' < m, k ≠ (pstep parts)^[m'] i) → parts2[k]? = parts[k]?)
    (hpath : ∀ m' < m, parts2[(pstep parts)^[m'] i]? = some r) :
    Rooted parts2 := by
  intro k hk
  rw [hlen] at hk
  obtain ⟨mk, rk⟩ := reaches_of_rootedAt (hR k hk)
  obtain ⟨rk', hrk'⟩ := rk
  have : ReachesW parts2 k rk' :=
    roots_preserved h hframe hpath k rk' (reaches_reachesW hrk')
  obtain ⟨m2, hm2, hm2r⟩ := this
  exact ⟨m2, by rw [hm2]; exact hm2r⟩

/-! ## Every reachable table stores only valid indices -/

theorem findLoop1_ok_lt {parts : List Nat} :
    ∀ fuel i r, findLoop1 parts fuel i = .ok r → r < parts.length := by
  intro fuel
  induction fuel with
  | zero => intro i r h; simp [findLoop1] at h
  | succ fuel ih =>
      intro i r h
      simp only [findLoop1] at h
      cases hget : parts[i]? with
      | none => simp [hget] at h
      | some v =>
          by_cases hv : v = i
          · simp [hget, hv] at h
            obtain ⟨hlt, _⟩ := List.getElem?_eq_some.1 hget
            omega
          · simp [hget, hv] at h
            exact ih v r h

theorem findLoop2_inRange (r : Nat) :
    ∀ fuel (parts : List Nat) s parts2, InRange parts → r < parts.length →
      findLoop2 r fuel parts s = .ok parts2 →
      InRange parts2 ∧ parts2.length = parts.length := by
  intro fuel
  induction fuel with
  | zero => intro parts s parts2 _ _ h; simp [findLoop2] at h
  | succ fuel ih =>
      intro parts s parts2 hIR hr h
      simp only [findLoop2] at h
      by_cases hs : s = r
      · simp [hs] at h
        exact ⟨h ▸ hIR, by rw [← h]⟩
      · simp only [if_neg hs] at h
        cases hget : parts[s]? with
        | none => simp [hget] at h
        | some t =>
            simp only [hget] at h
            have hIR1 : InRange (parts.set s r) := by
              intro x hx
              rw [List.length_set]
              rcases List.mem_or_eq_of_mem_set hx with hx | hx
              · exact hIR x hx
              · omega
            have hr1 : r < (parts.set s r).length := by rw [List.length_set]; exact hr
            obtain ⟨h1, h2⟩ := ih (parts.set s r) t parts2 hIR1 hr1 h
            exact ⟨h1, by rw [h2, List.length_set]⟩

theorem union_inRange {u u' : UnionFind} {i j : Nat} (hIR : InRange u.parts)
    (h : u.union i j = .ok u') :
    InRange u'.parts ∧ u'.parts.length = u.parts.length := by
  unfold UnionFind.union at h
  cases hget : u.parts[i]? with
  | none => simp [hget] at h
  | some v =>
      simp only [hget] at h
      by_cases hj : j < u.parts.length
      · simp only [if_pos hj] at h
        cases h
        constructor
        · intro x hx
          rw [List.length_set]
          rcases List.mem_or_eq_of_mem_set hx with hx | hx
          · exact hIR x hx
          · obtain ⟨hlt, he⟩ := List.getElem?_eq_some.1 hget
            have : v ∈ u.parts := he ▸ List.getElem_mem hlt
            subst hx
            exact hIR _ this
        · exact List.length_set u.parts j v
      · simp [if_neg hj] at h

theorem find_inRange {u u' : UnionFind} {fuel i r : Nat} (hIR : InRange u.parts)
    (h : u.find fuel i = .ok (r, u')) :
    InRange u'.parts ∧ u'.parts.length = u.parts.length := by
  unfold UnionFind.find at h
  cases h1 : findLoop1 u.parts fuel i with
  | panicked => rw [h1] at h; exact absurd h (by simp [Res.bind])
  | diverge => rw [h1] at h; exact absurd h (by simp [Res.bind])
  | ok p =>
      rw [h1] at h
      simp only [Res.bind] at h
      cases h2 : findLoop2 p fuel u.parts i with
      | panicked => rw [h2] at h; exact absurd h (by simp [Res.bind])
      | diverge => rw [h2] at h; exact absurd h (by simp [Res.bind])
      | ok parts2 =>
          rw [h2] at h
          simp only [Res.bind] at h
          cases h
          exact findLoop2_inRange r fuel u.parts i parts2 hIR
            (findLoop1_ok_lt fuel i r h1) h2

theorem same_inRange {u u' : UnionFind} {fuel i j : Nat} {b : Bool}
    (hIR : InRange u.parts) (h : u.same fuel i j = .ok (b, u')) :
    InRange u'.parts ∧ u'.parts.length = u.parts.length := by
  unfold UnionFind.same at h
  cases h1 : u.find fuel i with
  | panicked => rw [h1] at h; exact absurd h (by simp [Res.bind])
  | diverge => rw [h1] at h; exact absurd h (by simp [Res.bind])
  | ok a =>
      rw [h1] at h
      simp only [Res.bind] at h
      cases h2 : a.2.find fuel j with
      | panicked => rw [h2] at h; exact absurd h (by simp [Res.bind])
      | diverge => rw [h2] at h; exact absurd h (by simp [Res.bind])
      | ok c =>
          rw [h2] at h
          simp only [Res.bind] at h
          cases h
          obtain ⟨hIR1, hlen1⟩ := find_inRange hIR h1
          obtain ⟨hIR2, hlen2⟩ := find_inRange hIR1 h2
          exact ⟨hIR2, by rw [hlen2, hlen1]⟩

/-- Every reachable table state stores only valid indices. -/
theorem reach_inRange {u : UnionFind} (h : Reach u) : InRange u.parts := by
  induction h with
  | base n =>
      intro x hx
      simp only [UnionFind.new, List.length_range] at hx ⊢
      exact List.mem_range.1 hx
  | of_union u i j u' _ hu ih => exact (union_inRange ih hu).1
  | of_find u fuel i r u' _ hu ih => exact (find_inRange ih hu).1
  | of_same u fuel i j b u' _ hu ih => exact (same_inRange ih hu).1

/-! ## Helper facts for concrete states and for `same` -/

theorem rooted_00 : Rooted [0, 0] := by
  intro i hi
  refine ⟨1, ?_⟩
  have hi' : i < 2 := by simpa using hi
  interval_cases i <;> decide

theorem reaches_001 : Reaches [0, 0, 1] 2 2 0 := by
  refine ⟨by decide, by decide, ?_⟩
  intro m' hm'
  interval_cases m' <;> decide

/-- On a cyclic state, the root-finding loop exhausts every fuel. -/
theorem cycle121_loop : ∀ fuel p, p = 1 ∨ p = 2 →
    findLoop1 [1, 2, 1] fuel p = .diverge := by
  intro fuel
  induction fuel with
  | zero => intro p _; rfl
  | succ fuel ih =>
      intro p hp
      rcases hp with rfl | rfl
      · show findLoop1 [1, 2, 1] (fuel + 1) 1 = .diverge
        have : ([1, 2, 1] : List Nat)[1]? = some 2 := by decide
        simp only [findLoop1, this]
        rw [if_neg (by decide)]
        exact ih 2 (Or.inr rfl)
      · show findLoop1 [1, 2, 1] (fuel + 1) 2 = .diverge
        have : ([1, 2, 1] : List Nat)[2]? = some 1 := by decide
        simp only [findLoop1, this]
        rw [if_neg (by decide)]
        exact ih 1 (Or.inl rfl)

theorem cycle121_loop_from0 : ∀ fuel, findLoop1 [1, 2, 1] fuel 0 = .diverge := by
  intro fuel
  cases fuel with
  | zero => rfl
  | succ fuel =>
      show findLoop1 [1, 2, 1] (fuel + 1) 0 = .diverge
      have : ([1, 2, 1] : List Nat)[0]? = some 1 := by decide
      simp only [findLoop1, this]
      rw [if_neg (by decide)]
      exact cycle121_loop fuel 1 (Or.inl rfl)

theorem cycle121_iter : ∀ m, (pstep [1, 2, 1])^[m] 1 = 1 ∨ (pstep [1, 2, 1])^[m] 1 = 2 := by
  intro m
  induction m with
  | zero => left; rfl
  | succ m ih =>
      rw [Function.iterate_succ_apply']
      rcases ih with h | h <;> rw [h]
      · right; decide
      · left; decide

theorem cycle121_not_rooted : ¬ Rooted [1, 2, 1] := by
  intro hR
  obtain ⟨m, hm⟩ := hR 0 (by decide)
  cases m with
  | zero => exact absurd hm (by decide)
  | succ m =>
      rw [Function.iterate_succ_apply] at hm
      have h1 : pstep [1, 2, 1] 0 = 1 := by decide
      rw [h1] at hm
      rcases cycle121_iter m with h | h <;> rw [h] at hm <;> exact absurd hm (by decide)

/-- On a rooted, in-range table, `same` succeeds and agrees with
`same_only` (shared by the refinement and safety claims). -/
theorem same_agrees_same_only {u : UnionFind} (hIR : InRange u.parts)
    (hR : Rooted u.parts) {i j : Nat} (hi : i < u.parts.length)
    (hj : j < u.parts.length) :
    ∃ b u', u.same (u.parts.length + 1) i j = .ok (b, u') ∧
      u.same_only (u.parts.length + 1) i j = .ok b := by
  obtain ⟨mi, ri, hri, hmi⟩ := rooted_reaches hIR hR hi
  obtain ⟨mj, rj, hrj, hmj⟩ := rooted_reaches hIR hR hj
  obtain ⟨parts2, hfind_i, hlen2, hframe, hpath⟩ :=
    @find_spec u i mi ri hIR hi hri (u.parts.length + 1) (by omega)
  have hfo_i : u.find_only (u.parts.length + 1) i = .ok ri :=
    find_only_val hIR hi hri (by omega)
  have hfo_j : u.find_only (u.parts.length + 1) j = .ok rj :=
    find_only_val hIR hj hrj (by omega)
  have hIR2 : InRange parts2 := inRange_preserved hIR hi hri hlen2 hframe hpath
  have hR2 : Rooted parts2 := rooted_preserved hR hri hlen2 hframe hpath
  have hj2 : j < parts2.length := by rw [hlen2]; exact hj
  obtain ⟨mj2, rj2, hrj2, hmj2⟩ := rooted_reaches hIR2 hR2 hj2
  have hpresj : ReachesW parts2 j rj :=
    roots_preserved hri hframe hpath j rj (reaches_reachesW hrj)
  have hrjeq : rj2 = rj := reachesW_unique (reaches_reachesW hrj2) hpresj
  obtain ⟨parts3, hfind_j, -, -, -⟩ :=
    @find_spec ⟨parts2⟩ j mj2 rj2 hIR2 hj2 hrj2 (u.parts.length + 1) (by omega)
  refine ⟨ri == rj2, ⟨parts3⟩, ?_, ?_⟩
  · show Res.bind (UnionFind.find (u.parts.length + 1) u i) _ = _
    rw [hfind_i]
    show Res.bind (UnionFind.find (u.parts.length + 1) ⟨parts2⟩ j)
        (fun b => Res.ok (ri == b.1, b.2)) = Res.ok (ri == rj2, ⟨parts3⟩)
    rw [hfind_j]
    rfl
  · show Res.bind (u.find_only (u.parts.length + 1) i) _ = _
    rw [hfo_i]
    show Res.bind (u.find_only (u.parts.length + 1) j)
        (fun b => Res.ok (ri == b)) = Res.ok (ri == rj2)
    rw [hfo_j, hrjeq]
    rfl

/-! ## The claims -/

/-- C1: the spec asserts that every reachable state is a forest with
self-loop roots and that every operation terminates.  The code violates
this: `new(3); union(1,0); union(2,1); union(0,2)` — all element
arguments valid — produces the parent array `[1,2,1]`, which contains the
non-trivial cycle `1 → 2 → 1`, is not `Rooted`, and on which `find(0)`
and `find_only(0)` exhaust every fuel instead of terminating. -/
theorem union_can_create_cycle :
    (Res.bind (Res.ok (UnionFind.new 3)) fun t =>
      Res.bind (t.union 1 0) fun t =>
      Res.bind (t.union 2 1) fun t => t.union 0 2) = .ok ⟨[1, 2, 1]⟩ ∧
    Reach ⟨[1, 2, 1]⟩ ∧
    ¬ Rooted [1, 2, 1] ∧
    (∀ fuel, UnionFind.find fuel ⟨[1, 2, 1]⟩ 0 = .diverge ∧
      UnionFind.find_only fuel ⟨[1, 2, 1]⟩ 0 = .diverge) := by
  refine ⟨by decide, ?_, cycle121_not_rooted, ?_⟩
  · have r0 : Reach (UnionFind.new 3) := Reach.base 3
    have r1 : Reach ⟨[1, 1, 2]⟩ := Reach.of_union _ 1 0 _ r0 (by decide)
    have r2 : Reach ⟨[1, 2, 2]⟩ := Reach.of_union _ 2 1 _ r1 (by decide)
    exact Reach.of_union _ 0 2 _ r2 (by decide)
  · intro fuel
    constructor
    · show Res.bind (findLoop1 [1, 2, 1] fuel 0) _ = _
      rw [cycle121_loop_from0 fuel]
      rfl
    · show findOnlyLoop [1, 2, 1] fuel 0 = _
      rw [findOnlyLoop_eq_findLoop1]
      exact cycle121_loop_from0 fuel

/-- C2: the spec asserts that `same(i,j)` is true exactly when `i` and
`j` are related by the equivalence generated by the union history.  The
code violates this: after `new(3); union(0,1); union(2,1)` the table is
`[0,2,2]`; the history relates 0 and 1 directly (first call), yet
`same(0,1)` returns `false` — the second union moved element 1 out of
0's partition. -/
theorem same_contradicts_union_history :
    (Res.bind (Res.ok (UnionFind.new 3)) fun t =>
      Res.bind (t.union 0 1) fun t => t.union 2 1) = .ok ⟨[0, 2, 2]⟩ ∧
    unionHistoryEqv [(0, 1), (2, 1)] 0 1 ∧
    UnionFind.same 4 ⟨[0, 2, 2]⟩ 0 1 = .ok (false, ⟨[0, 2, 2]⟩) := by
  refine ⟨by decide, ?_, by decide⟩
  show Relation.EqvGen (fun a b => (a, b) ∈ [((0 : Nat), (1 : Nat)), (2, 1)]) 0 1
  exact Relation.EqvGen.rel 0 1 (by decide)

/-- C7: the claim (and the `union` doc) says that immediately after
`union(i,j)` with no prior compression the merged partition's canonical
element is `i`'s prior canonical element.  On the compression-free
reachable state `[1,2,2]` (from `new(3); union(1,0); union(2,1)`, no
`find` calls), `find_only(0) = 2` before `union(0,2)`, but after that
union element 2 sits on a cycle: `find_only(2)` exhausts every fuel
instead of returning 2. -/
theorem union_direction_fails :
    (Res.bind (Res.ok (UnionFind.new 3)) fun t =>
      Res.bind (t.union 1 0) fun t => t.union 2 1) = .ok ⟨[1, 2, 2]⟩ ∧
    UnionFind.find_only 4 ⟨[1, 2, 2]⟩ 0 = .ok 2 ∧
    UnionFind.union ⟨[1, 2, 2]⟩ 0 2 = .ok ⟨[1, 2, 1]⟩ ∧
    (∀ fuel, UnionFind.find_only fuel ⟨[1, 2, 1]⟩ 2 = .diverge) := by
  refine ⟨by decide, by decide, by decide, ?_⟩
  intro fuel
  show findOnlyLoop [1, 2, 1] fuel 2 = _
  rw [findOnlyLoop_eq_findLoop1]
  exact cycle121_loop fuel 2 (Or.inr rfl)

/-- C9: the module documentation example: build a table of size 20 and
`union(0,i)` for even `i`, `union(1,i)` for odd `i`; afterwards the table
is `[0,1,0,1,...]` and `find(i)` returns `i % 2` for every `i < 20`
(leaving the already-flat table unchanged). -/
theorem parity_example_correct :
    parityExample = .ok ⟨(List.range 20).map (fun k => k % 2)⟩ ∧
    ∀ i : Fin 20,
      UnionFind.find 21 ⟨(List.range 20).map (fun k => k % 2)⟩ i.1
        = .ok (i.1 % 2, ⟨(List.range 20).map (fun k => k % 2)⟩) :=
  ⟨by decide, by decide⟩

/-- C10: `union(i,j)` is a state no-op whenever `parts[i] == parts[j]`
already holds — it writes the value back unchanged; in particular a
self-union `union(j,j)` leaves the table untouched. -/
theorem union_noop_of_equal_parents {u : UnionFind} {i j : Nat}
    (hij : u.parts[i]? = u.parts[j]?) (hi : i < u.parts.length)
    (hj : j < u.parts.length) :
    u.union i j = .ok u := by
  have hget : u.parts[j]? = some u.parts[j] := List.getElem?_eq_getElem hj
  have hset : u.parts.set j u.parts[j] = u.parts := by
    apply List.ext_getElem?
    intro n
    by_cases hn : n = j
    · subst hn
      rw [List.getElem?_set_eq hj, hget]
    · exact List.getElem?_set_ne (fun hc => hn hc.symm)
  have hiv : u.parts[i]? = some u.parts[j] := by rw [hij]; exact hget
  unfold UnionFind.union
  simp only [hiv]
  rw [if_pos hj, hset]

/-- Witness for C10: on `[0,1,0]`, `parts[2] == parts[0]`, and
`union(2,0)` leaves the table unchanged. -/
theorem union_noop_of_equal_parents_witness :
    ([0, 1, 0] : List Nat)[2]? = ([0, 1, 0] : List Nat)[0]? ∧
    UnionFind.union ⟨[0, 1, 0]⟩ 2 0 = .ok ⟨[0, 1, 0]⟩ :=
  ⟨by decide,
    @union_noop_of_equal_parents ⟨[0, 1, 0]⟩ 2 0 (by decide) (by decide) (by decide)⟩

/-- C3: on any in-range table satisfying the forest invariant (the
condition the spec asserts of every reachable state — see
`union_can_create_cycle` for the states where it fails and both lookups
diverge together), the mutating and non-mutating lookups agree: `find`
returns the same root as `find_only`, and `same` returns the same
boolean as `same_only`. -/
theorem find_agrees_find_only {u : UnionFind} {i j : Nat}
    (hIR : InRange u.parts) (hR : Rooted u.parts)
    (hi : i < u.parts.length) (hj : j < u.parts.length) :
    (∃ r u', u.find (u.parts.length + 1) i = .ok (r, u') ∧
      u.find_only (u.parts.length + 1) i = .ok r) ∧
    (∃ b u', u.same (u.parts.length + 1) i j = .ok (b, u') ∧
      u.same_only (u.parts.length + 1) i j = .ok b) := by
  constructor
  · obtain ⟨mi, ri, hri, hmi⟩ := rooted_reaches hIR hR hi
    obtain ⟨parts2, hfind, -, -, -⟩ :=
      @find_spec u i mi ri hIR hi hri (u.parts.length + 1) (by omega)
    exact ⟨ri, ⟨parts2⟩, hfind, find_only_val hIR hi hri (by omega)⟩
  · exact same_agrees_same_only hIR hR hi hj

/-- Witness for C3 at the table `[0,0]` with `i = 1`, `j = 0`. -/
theorem find_agrees_find_only_witness :
    InRange [0, 0] ∧ Rooted [0, 0] ∧
    ((∃ r u', UnionFind.find 3 ⟨[0, 0]⟩ 1 = .ok (r, u') ∧
        UnionFind.find_only 3 ⟨[0, 0]⟩ 1 = .ok r) ∧
      (∃ b u', UnionFind.same 3 ⟨[0, 0]⟩ 1 0 = .ok (b, u') ∧
        UnionFind.same_only 3 ⟨[0, 0]⟩ 1 0 = .ok b)) :=
  ⟨by decide, rooted_00,
    @find_agrees_find_only ⟨[0, 0]⟩ 1 0 (by decide) rooted_00 (by decide) (by decide)⟩

/-- C4: on an in-range state, given the walk from `i` along parent
pointers to the first self-loop root `r` (in `m` minimal steps), `find(i)`
returns `r` and afterwards every element visited on that walk — the
elements `parent^[m'] i` for `m' < m`, which excludes `r` itself — has
its parent pointer set directly to `r` (full path compression). -/
theorem find_returns_walk_root_and_compresses {u : UnionFind} {i m r : Nat}
    (hIR : InRange u.parts) (hi : i < u.parts.length)
    (hwalk : Reaches u.parts i m r) :
    ∃ parts2, u.find (u.parts.length + 1) i = .ok (r, ⟨parts2⟩) ∧
      ∀ m' < m, parts2[(pstep u.parts)^[m'] i]? = some r := by
  obtain ⟨parts2, heq, -, -, hpath⟩ :=
    @find_spec u i m r hIR hi hwalk (u.parts.length + 1)
      (by have := reaches_lt_length hIR hi hwalk; omega)
  exact ⟨parts2, heq, hpath⟩

/-- Witness for C4 at the table `[0,0,1]`, whose walk from 2 is
`2 → 1 → 0` with root 0. -/
theorem find_returns_walk_root_and_compresses_witness :
    InRange [0, 0, 1] ∧ (2 : Nat) < ([0, 0, 1] : List Nat).length ∧
    Reaches [0, 0, 1] 2 2 0 ∧
    (∃ parts2, UnionFind.find 4 ⟨[0, 0, 1]⟩ 2 = .ok (0, ⟨parts2⟩) ∧
      ∀ m' < 2, parts2[(pstep [0, 0, 1])^[m'] 2]? = some 0) :=
  ⟨by decide, by decide, reaches_001,
    @find_returns_walk_root_and_compresses ⟨[0, 0, 1]⟩ 2 2 0 (by decide) (by decide)
      reaches_001⟩

/-- C5: `union(i,j)` overwrites exactly slot `j` with the value
`parts[i]` held immediately before the call (not `i`'s root), and every
other slot — in particular slot `i` when `i ≠ j` — is unchanged.  (The
Rust function returns `()`; the model returns the updated table.) -/
theorem union_writes_only_slot_j {u : UnionFind} {i j v : Nat}
    (hiv : u.parts[i]? = some v) (hj : j < u.parts.length) :
    u.union i j = .ok ⟨u.parts.set j v⟩ ∧
    (u.parts.set j v)[j]? = some v ∧
    (∀ k, k ≠ j → (u.parts.set j v)[k]? = u.parts[k]?) := by
  refine ⟨?_, List.getElem?_set_eq hj, ?_⟩
  · unfold UnionFind.union
    simp only [hiv]
    rw [if_pos hj]
  · intro k hk
    exact List.getElem?_set_ne (Ne.symm hk)

/-- Witness for C5 at the table `[0,1]` with `i = 0`, `j = 1`. -/
theorem union_writes_only_slot_j_witness :
    ([0, 1] : List Nat)[0]? = some 0 ∧ (1 : Nat) < ([0, 1] : List Nat).length ∧
    (UnionFind.union ⟨[0, 1]⟩ 0 1 = .ok ⟨List.set [0, 1] 1 0⟩ ∧
      (List.set [0, 1] 1 0)[1]? = some 0 ∧
      (∀ k, k ≠ 1 → (List.set [0, 1] 1 0)[k]? = ([0, 1] : List Nat)[k]?)) :=
  ⟨by decide, by decide, @union_writes_only_slot_j ⟨[0, 1]⟩ 0 1 0 (by decide) (by decide)⟩

/-- C6: on an in-range table satisfying the forest invariant, `find(i)`
rewrites parent pointers only at elements on the walk from `i` to its
root, and changes no element's partition membership: `find_only(k)` on
the mutated table equals `find_only(k)` on the original table for every
valid `k`. -/
theorem find_preserves_membership {u : UnionFind} {i : Nat}
    (hIR : InRange u.parts) (hR : Rooted u.parts) (hi : i < u.parts.length) :
    ∃ m r parts2, Reaches u.parts i m r ∧
      u.find (u.parts.length + 1) i = .ok (r, ⟨parts2⟩) ∧
      (∀ k, (∀ m' < m, k ≠ (pstep u.parts)^[m'] i) → parts2[k]? = u.parts[k]?) ∧
      (∀ k, k < u.parts.length →
        UnionFind.find_only (u.parts.length + 1) ⟨parts2⟩ k
          = u.find_only (u.parts.length + 1) k) := by
  obtain ⟨m, r, hwalk, hm⟩ := rooted_reaches hIR hR hi
  obtain ⟨parts2, heq, hlen2, hframe, hpath⟩ :=
    @find_spec u i m r hIR hi hwalk (u.parts.length + 1) (by omega)
  have hIR2 : InRange parts2 := inRange_preserved hIR hi hwalk hlen2 hframe hpath
  have hR2 : Rooted parts2 := rooted_preserved hR hwalk hlen2 hframe hpath
  refine ⟨m, r, parts2, hwalk, heq, hframe, ?_⟩
  intro k hk
  obtain ⟨mk, rk, hrk, hmk⟩ := rooted_reaches hIR hR hk
  have hk2 : k < parts2.length := by rw [hlen2]; exact hk
  obtain ⟨mk2, rk2, hrk2, hmk2⟩ := rooted_reaches hIR2 hR2 hk2
  have hpres : ReachesW parts2 k rk :=
    roots_preserved hwalk hframe hpath k rk (reaches_reachesW hrk)
  have hrkeq : rk2 = rk := reachesW_unique (reaches_reachesW hrk2) hpres
  have h1 : UnionFind.find_only (u.parts.length + 1) ⟨parts2⟩ k = .ok rk2 :=
    @find_only_val ⟨parts2⟩ hIR2 k mk2 rk2 hk2 hrk2 (u.parts.length + 1) (by omega)
  have h2 : u.find_only (u.parts.length + 1) k = .ok rk :=
    find_only_val hIR hk hrk (by omega)
  rw [h1, h2, hrkeq]

/-- Witness for C6 at the table `[0,0]` with `i = 1`. -/
theorem find_preserves_membership_witness :
    InRange [0, 0] ∧ Rooted [0, 0] ∧
    (∃ m r parts2, Reaches [0, 0] 1 m r ∧
      UnionFind.find 3 ⟨[0, 0]⟩ 1 = .ok (r, ⟨parts2⟩) ∧
      (∀ k, (∀ m' < m, k ≠ (pstep [0, 0])^[m'] 1) → parts2[k]? = ([0, 0] : List Nat)[k]?) ∧
      (∀ k, k < ([0, 0] : List Nat).length →
        UnionFind.find_only 3 ⟨parts2⟩ k = UnionFind.find_only 3 ⟨[0, 0]⟩ k)) :=
  ⟨by decide, rooted_00,
    @find_preserves_membership ⟨[0, 0]⟩ 1 (by decide) rooted_00 (by decide)⟩

/-- C8: on an in-range table satisfying the forest invariant, the only
failure mode is out-of-range element access: with both element arguments
valid, every operation returns normally (no panic); with `i` out of
range, every operation that receives `i` panics on the bounds-checked
indexing; with `i` valid but `j` out of range, the two-argument
operations panic. -/
theorem ops_panic_iff_out_of_range {u : UnionFind} (i j : Nat)
    (hIR : InRange u.parts) (hR : Rooted u.parts) :
    (i < u.parts.length → j < u.parts.length →
      (∃ x, u.union i j = .ok x) ∧
      (∃ x, u.find (u.parts.length + 1) i = .ok x) ∧
      (∃ x, u.find_only (u.parts.length + 1) i = .ok x) ∧
      (∃ x, u.same (u.parts.length + 1) i j = .ok x) ∧
      (∃ x, u.same_only (u.parts.length + 1) i j = .ok x)) ∧
    (¬ i < u.parts.length →
      u.union i j = .panicked ∧
      u.find (u.parts.length + 1) i = .panicked ∧
      u.find_only (u.parts.length + 1) i = .panicked ∧
      u.same (u.parts.length + 1) i j = .panicked ∧
      u.same_only (u.parts.length + 1) i j = .panicked) ∧
    (i < u.parts.length → ¬ j < u.parts.length →
      u.union i j = .panicked ∧
      u.same (u.parts.length + 1) i j = .panicked ∧
      u.same_only (u.parts.length + 1) i j = .panicked) := by
  refine ⟨?_, ?_, ?_⟩
  · intro hi hj
    obtain ⟨mi, ri, hri, hmi⟩ := rooted_reaches hIR hR hi
    obtain ⟨b, u', hsame, hsameo⟩ := same_agrees_same_only hIR hR hi hj
    obtain ⟨parts2, hfind, -, -, -⟩ :=
      @find_spec u i mi ri hIR hi hri (u.parts.length + 1) (by omega)
    refine ⟨⟨⟨u.parts.set j (pstep u.parts i)⟩, ?_⟩, ⟨(ri, ⟨parts2⟩), hfind⟩,
      ⟨ri, find_only_val hIR hi hri (by omega)⟩, ⟨(b, u'), hsame⟩, ⟨b, hsameo⟩⟩
    unfold UnionFind.union
    simp only [getElem?_eq_pstep hi]
    rw [if_pos hj]
  · intro hi
    have hnone : u.parts[i]? = none := List.getElem?_eq_none (by omega)
    have hloop : findLoop1 u.parts (u.parts.length + 1) i = .panicked := by
      simp [findLoop1, hnone]
    have hfind : u.find (u.parts.length + 1) i = .panicked := by
      show Res.bind (findLoop1 u.parts (u.parts.length + 1) i) _ = _
      rw [hloop]; rfl
    have hfo : u.find_only (u.parts.length + 1) i = .panicked := by
      show findOnlyLoop u.parts (u.parts.length + 1) i = _
      rw [findOnlyLoop_eq_findLoop1, hloop]
    refine ⟨?_, hfind, hfo, ?_, ?_⟩
    · unfold UnionFind.union
      simp [hnone]
    · show Res.bind (u.find (u.parts.length + 1) i) _ = _
      rw [hfind]; rfl
    · show Res.bind (u.find_only (u.parts.length + 1) i) _ = _
      rw [hfo]; rfl
  · intro hi hj
    refine ⟨?_, ?_, ?_⟩
    · unfold UnionFind.union
      simp only [getElem?_eq_pstep hi]
      rw [if_neg hj]
    · obtain ⟨mi, ri, hri, hmi⟩ := rooted_reaches hIR hR hi
      obtain ⟨parts2, hfind, hlen2, -, -⟩ :=
        @find_spec u i mi ri hIR hi hri (u.parts.length + 1) (by omega)
      have hnone2 : parts2[j]? = none := List.getElem?_eq_none (by rw [hlen2]; omega)
      have hloopj : findLoop1 parts2 (u.parts.length + 1) j = .panicked := by
        simp [findLoop1, hnone2]
      have hfindj : UnionFind.find (u.parts.length + 1) ⟨parts2⟩ j = .panicked := by
        show Res.bind (findLoop1 parts2 (u.parts.length + 1) j) _ = _
        rw [hloopj]; rfl
      show Res.bind (u.find (u.parts.length + 1) i) _ = _
      rw [hfind]
      show Res.bind (UnionFind.find (u.parts.length + 1) ⟨parts2⟩ j) _ = _
      rw [hfindj]; rfl
    · obtain ⟨mi, ri, hri, hmi⟩ := rooted_reaches hIR hR hi
      have hfo : u.find_only (u.parts.length + 1) i = .ok ri :=
        find_only_val hIR hi hri (by omega)
      have hnone : u.parts[j]? = none := List.getElem?_eq_none (by omega)
      have hloopj : findLoop1 u.parts (u.parts.length + 1) j = .panicked := by
        simp [findLoop1, hnone]
      have hfoj : u.find_only (u.parts.length + 1) j = .panicked := by
        show findOnlyLoop u.parts (u.parts.length + 1) j = _
        rw [findOnlyLoop_eq_findLoop1, hloopj]
      show Res.bind (u.find_only (u.parts.length + 1) i) _ = _
      rw [hfo]
      show Res.bind (u.find_only (u.parts.length + 1) j) _ = _
      rw [hfoj]; rfl

/-- Witness for C8 at the table `[0,0]` with the out-of-range `j = 5`. -/
theorem ops_panic_iff_out_of_range_witness :
    InRange [0, 0] ∧ Rooted [0, 0] ∧
    (UnionFind.union ⟨[0, 0]⟩ 0 5 = .panicked ∧
      UnionFind.same 3 ⟨[0, 0]⟩ 0 5 = .panicked ∧
      UnionFind.same_only 3 ⟨[0, 0]⟩ 0 5 = .panicked) :=
  ⟨by decide, rooted_00,
    (@ops_panic_iff_out_of_range ⟨[0, 0]⟩ 0 5 (by decide) rooted_00).2.2
      (by decide) (by decide)⟩
